import Mathlib

/-!
Verification development for the diffdb differential engine (src/diff.go).

The Go code keeps five BoltDB buckets per namespace:
  bucketHashes (committed id → hash), bucketPendingHashes (id → hash),
  bucketPendingHashData (hash → serialized object), bucketUserData,
  bucketKeyConflicts (id → presence marker).
We embed a bucket as an association list sorted by the byte key (BoltDB
iterates keys in ascending lexicographic order), with get/put/delete
mirroring the bucket API.  The external structural hasher
(hashstructure.Hash) is an arbitrary function parameter yielding a
uint64, encoded little-endian into 8 bytes exactly as HashOf does; the
msgpack codec is modelled by storing the object itself as the payload.
-/

/-- A byte string: BoltDB keys and values. -/
abbrev Bytes := List Nat

/-- Lexicographic strict order on byte strings, as bytes.Compare < 0. -/
def bytesLt : Bytes → Bytes → Bool
  | _, [] => false
  | [], _ :: _ => true
  | a :: as, b :: bs => a < b || (a == b && bytesLt as bs)

/-- Bucket.Get: value of the first entry with the given key, none if absent. -/
def bget {α : Type} : List (Bytes × α) → Bytes → Option α
  | [], _ => none
  | (k, v) :: rest, q => if k = q then some v else bget rest q

/-- Bucket.Put: insert or replace, keeping keys in ascending order. -/
def bput {α : Type} : List (Bytes × α) → Bytes → α → List (Bytes × α)
  | [], k, v => [(k, v)]
  | (k0, v0) :: rest, k, v =>
    if bytesLt k k0 then (k, v) :: (k0, v0) :: rest
    else if k = k0 then (k, v) :: rest
    else (k0, v0) :: bput rest k v

/-- Bucket.Delete: remove the entry with the given key, if present. -/
def bdel {α : Type} : List (Bytes × α) → Bytes → List (Bytes × α)
  | [], _ => []
  | (k0, v0) :: rest, k => if k0 = k then rest else (k0, v0) :: bdel rest k

/-- The keys of a bucket are pairwise distinct. -/
def keysNodup {α : Type} (b : List (Bytes × α)) : Prop :=
  (b.map Prod.fst).Nodup

/-- Go treats a nil byte slice as empty in bytes.Compare. -/
def optBytes : Option Bytes → Bytes
  | none => []
  | some b => b

/-- binary.LittleEndian.PutUint64: the 8 little-endian bytes of a digest. -/
def leBytes8 (n : Nat) : Bytes :=
  [n % 256, n / 256 % 256, n / 256 ^ 2 % 256, n / 256 ^ 3 % 256,
   n / 256 ^ 4 % 256, n / 256 ^ 5 % 256, n / 256 ^ 6 % 256, n / 256 ^ 7 % 256]

/-- An Object: an opaque caller-assigned ID plus hashable content. -/
structure Obj where
  id : Bytes
  content : Nat
deriving DecidableEq

/-- HashOf: run the structural hasher and lay the uint64 out little-endian. -/
def HashOf (hF : Obj → Nat) (x : Obj) : Bytes :=
  leBytes8 (hF x)

/-- The five per-namespace tables plus the in-memory conflict-tracking flag. -/
structure DiffState where
  hashes : List (Bytes × Bytes)
  pendingHashes : List (Bytes × Bytes)
  pendingData : List (Bytes × Obj)
  userData : List (Bytes × Bytes)
  conflicts : List (Bytes × Bytes)
  trackConflicts : Bool
deriving DecidableEq

/-- The empty namespace right after Open. -/
def emptyState : DiffState :=
  ⟨[], [], [], [], [], false⟩

/-- Outcome of AddTx: ok updated, or ErrConflictingKey. -/
inductive AddRes where
  | ok (updated : Bool)
  | conflict
deriving DecidableEq

/-- MustNotConflict: clear the conflict bucket and (via the commit hook)
set the trackConflicts flag. -/
def MustNotConflict (s : DiffState) : DiffState :=
  { s with conflicts := [], trackConflicts := true }

/-- The write path at the end of AddTx: put the pending hash, put the
payload keyed by the hash, and set the conflict marker when tracking. -/
def finishAdd (s : DiffState) (id hash : Bytes) (obj : Obj) : DiffState :=
  let s2 := { s with pendingHashes := bput s.pendingHashes id hash }
  let s3 := { s2 with pendingData := bput s2.pendingData hash obj }
  if s3.trackConflicts then { s3 with conflicts := bput s3.conflicts id [] } else s3

/-- AddTx (src/diff.go:153-221): stage one object inside a transaction. -/
def AddTx (hF : Obj → Nat) (s : DiffState) (obj : Obj) : AddRes × DiffState :=
  let id := obj.id
  if s.trackConflicts = true ∧ (bget s.conflicts id).isSome = true then
    (AddRes.conflict, s)
  else
    let hash := HashOf hF obj
    let existing := optBytes (bget s.hashes id)
    if existing = hash then
      (AddRes.ok false, s)
    else
      match bget s.pendingHashes id with
      | some pending =>
        if pending ≠ [] ∧ pending = hash then
          (AddRes.ok false, s)
        else
          (AddRes.ok true,
            finishAdd { s with pendingData := bdel s.pendingData pending } id hash obj)
      | none => (AddRes.ok true, finishAdd s id hash obj)

/-- Add: run AddTx in its own update transaction; errors roll it back.
(Named AddOne here because Add is the arithmetic class in Lean.) -/
def AddOne (hF : Obj → Nat) (s : DiffState) (obj : Obj) : AddRes × DiffState :=
  match AddTx hF s obj with
  | (AddRes.conflict, _) => (AddRes.conflict, s)
  | (AddRes.ok u, s1) => (AddRes.ok u, s1)

/-- Changed (src/diff.go:273-286): hash the candidate and compare against
the committed bucket only; a read transaction, so the state is returned
untouched. -/
def Changed (hF : Obj → Nat) (s : DiffState) (id : Bytes) (x : Obj) : Bool × DiffState :=
  let hash := HashOf hF x
  let compare := optBytes (bget s.hashes id)
  (decide (compare ≠ hash), s)

/-- CountTracking: number of keys in the committed bucket. -/
def CountTracking (s : DiffState) : Nat :=
  s.hashes.length

/-- CountChanges: number of keys in the pending bucket. -/
def CountChanges (s : DiffState) : Nat :=
  s.pendingHashes.length

/-- One observation on the AddChan input stream: a context-cancellation
signal, a received object, or the nil sentinel.  An exhausted list stands
for a closed channel, whose receive also delivers nil. -/
inductive Ev where
  | cancel
  | item (o : Obj)
  | done
deriving DecidableEq

/-- Outcome of AddChan: the outer transaction committed, or it was rolled
back by cancellation or by a staging error. -/
inductive ChanRes where
  | committed
  | cancelled
  | conflictErr
deriving DecidableEq

/-- The AddChan receive loop: s0 is the state the deferred rollback
restores, cur the state accumulated inside the open transaction. -/
def addChanLoop (hF : Obj → Nat) (s0 : DiffState) : DiffState → List Ev → ChanRes × DiffState
  | cur, [] => (ChanRes.committed, cur)
  | _, Ev.cancel :: _ => (ChanRes.cancelled, s0)
  | cur, Ev.done :: _ => (ChanRes.committed, cur)
  | cur, Ev.item o :: rest =>
    match AddTx hF cur o with
    | (AddRes.conflict, _) => (ChanRes.conflictErr, s0)
    | (AddRes.ok _, cur1) => addChanLoop hF s0 cur1 rest

/-- AddChan (src/diff.go:226-255): fold a stream of stages into one outer
transaction; only the nil sentinel (or channel close) commits it. -/
def AddChan (hF : Obj → Nat) (s : DiffState) (evs : List Ev) : ChanRes × DiffState :=
  addChanLoop hF s s evs

/-- One aggregated entry of the multierror returned by EachN: a per-item
callback failure keyed by ID, or the context-cancellation error. -/
inductive AErr where
  | fail (id : Bytes)
  | cancelled
deriving DecidableEq

/-- Ghost record of one callback invocation during an EachN scan. -/
structure TraceEntry where
  id : Bytes
  hash : Bytes
  obj : Obj
  ok : Bool
deriving DecidableEq

/-- Promotion of one pending item (src/diff.go:356-364): write the
committed hash, delete the pending hash and its payload. -/
def promote (s : DiffState) (id hash : Bytes) : DiffState :=
  { s with hashes := bput s.hashes id hash,
           pendingHashes := bdel s.pendingHashes id,
           pendingData := bdel s.pendingData hash }

/-- The EachN scan loop over a snapshot of the pending bucket in key
order.  j is the iteration index at which the cancellation predicate is
sampled, i the number of promotions so far (Go's i, compared against the
limit n).  none models the panic on a pending hash with no payload; on
callback failure the error is recorded and the scan continues. -/
def eachLoop (f : Bytes → Obj → Bool) (cancel : Nat → Bool) (n : Int) :
    List (Bytes × Bytes) → Nat → Nat → DiffState →
    Option (List AErr × List TraceEntry × DiffState)
  | [], _, _, s => some ([], [], s)
  | (id, hash) :: rest, j, i, s =>
    if cancel j then some ([AErr.cancelled], [], s)
    else
      match bget s.pendingData hash with
      | none => none
      | some o =>
        if f id o then
          let s1 := promote s id hash
          if 0 < n ∧ n = (i : Int) + 1 then some ([], [⟨id, hash, o, true⟩], s1)
          else
            (eachLoop f cancel n rest (j + 1) (i + 1) s1).map
              (fun r => (r.1, TraceEntry.mk id hash o true :: r.2.1, r.2.2))
        else
          (eachLoop f cancel n rest (j + 1) i s).map
            (fun r => (AErr.fail id :: r.1, TraceEntry.mk id hash o false :: r.2.1, r.2.2))

/-- EachN (src/diff.go:316-376): scan the pending bucket in ascending key
order, apply the callback to each item, promote successes, aggregate
failures, stop at the limit or on cancellation, commit once at the end.
The returned list of AErr is the aggregated multierror in append order
(empty list = nil error); the trace is a ghost log of the invocations. -/
def EachN (f : Bytes → Obj → Bool) (cancel : Nat → Bool) (s : DiffState) (n : Int) :
    Option (List AErr × List TraceEntry × DiffState) :=
  eachLoop f cancel n s.pendingHashes 0 0 s

/-- Each: EachN with no limit. -/
def Each (f : Bytes → Obj → Bool) (cancel : Nat → Bool) (s : DiffState) :
    Option (List AErr × List TraceEntry × DiffState) :=
  EachN f cancel s (-1)

/-! ### Bucket lemmas -/

theorem bytesLt_irrefl (k : Bytes) : bytesLt k k = false := by
  induction k with
  | nil => rfl
  | cons a as ih => simp [bytesLt, ih]

theorem bget_bput_self {α : Type} (b : List (Bytes × α)) (k : Bytes) (v : α) :
    bget (bput b k v) k = some v := by
  induction b with
  | nil => simp [bput, bget]
  | cons hd tl ih =>
    obtain ⟨k0, v0⟩ := hd
    by_cases h1 : bytesLt k k0 = true
    · simp [bput, h1, bget]
    · by_cases h2 : k = k0
      · subst h2
        simp [bput, bytesLt_irrefl, bget]
      · simp [bput, h1, h2, bget, Ne.symm h2, ih]

theorem bget_bput_ne {α : Type} (b : List (Bytes × α)) (k q : Bytes) (v : α) (h : q ≠ k) :
    bget (bput b k v) q = bget b q := by
  have h1 : k ≠ q := Ne.symm h
  induction b with
  | nil => simp [bput, bget, h1]
  | cons hd tl ih =>
    obtain ⟨k0, v0⟩ := hd
    by_cases h2 : bytesLt k k0 = true
    · simp [bput, h2, bget, h1]
    · by_cases h3 : k = k0
      · subst h3
        simp [bput, bytesLt_irrefl, bget, h1]
      · simp [bput, h2, h3, bget, ih]

theorem bget_bdel_ne {α : Type} (b : List (Bytes × α)) (k q : Bytes) (h : q ≠ k) :
    bget (bdel b k) q = bget b q := by
  induction b with
  | nil => simp [bdel]
  | cons hd tl ih =>
    obtain ⟨k0, v0⟩ := hd
    by_cases h2 : k0 = k
    · subst h2
      have h3 : k0 ≠ q := Ne.symm h
      simp [bdel, bget, h3]
    · simp [bdel, h2, bget, ih]

theorem bdel_sublist {α : Type} (b : List (Bytes × α)) (k : Bytes) :
    (bdel b k).Sublist b := by
  induction b with
  | nil => simp [bdel]
  | cons hd tl ih =>
    obtain ⟨k0, v0⟩ := hd
    by_cases h2 : k0 = k
    · simp only [bdel, if_pos h2]
      exact List.sublist_cons_self (k0, v0) tl
    · simpa [bdel, h2] using ih.cons₂ (k0, v0)

theorem keysNodup_bdel {α : Type} (b : List (Bytes × α)) (k : Bytes)
    (h : keysNodup b) : keysNodup (bdel b k) :=
  ((bdel_sublist b k).map Prod.fst).nodup h

theorem bget_eq_none_of_not_mem {α : Type} (b : List (Bytes × α)) (k : Bytes)
    (h : k ∉ b.map Prod.fst) : bget b k = none := by
  induction b with
  | nil => simp [bget]
  | cons hd tl ih =>
    obtain ⟨k0, v0⟩ := hd
    simp only [List.map_cons, List.mem_cons, not_or] at h
    have h1 : k0 ≠ k := Ne.symm h.1
    simp [bget, h1, ih h.2]

theorem bget_bdel_self {α : Type} (b : List (Bytes × α)) (k : Bytes)
    (h : keysNodup b) : bget (bdel b k) k = none := by
  induction b with
  | nil => simp [bdel, bget]
  | cons hd tl ih =>
    obtain ⟨k0, v0⟩ := hd
    simp only [keysNodup, List.map_cons, List.nodup_cons] at h
    by_cases h2 : k0 = k
    · subst h2
      simpa [bdel] using bget_eq_none_of_not_mem tl k0 h.1
    · simpa [bdel, h2, bget, h2] using ih h.2

theorem bget_of_mem_nodup {α : Type} (b : List (Bytes × α)) (k : Bytes) (v : α)
    (hn : keysNodup b) (hm : (k, v) ∈ b) : bget b k = some v := by
  induction b with
  | nil => simp at hm
  | cons hd tl ih =>
    obtain ⟨k0, v0⟩ := hd
    simp only [keysNodup, List.map_cons, List.nodup_cons] at hn
    rcases List.mem_cons.mp hm with h | h
    · obtain ⟨h1, h2⟩ := Prod.ext_iff.mp h
      simp only at h1 h2
      subst h1
      subst h2
      simp [bget]
    · have hk : k0 ≠ k := by
        intro he
        exact hn.1 (he ▸ (List.mem_map.mpr ⟨(k, v), h, rfl⟩))
      simp [bget, hk, ih hn.2 h]

theorem bget_none_bdel {α : Type} (b : List (Bytes × α)) (k q : Bytes)
    (h : bget b q = none) : bget (bdel b k) q = none := by
  by_cases hq : q = k
  · subst hq
    induction b with
    | nil => simp [bdel, bget]
    | cons hd tl ih =>
      obtain ⟨k0, v0⟩ := hd
      by_cases h2 : k0 = q
      · subst h2
        simp [bget] at h
      · simp only [bget, if_neg h2] at h
        simpa [bdel, h2, bget, h2] using ih h
  · rw [bget_bdel_ne b k q hq]
    exact h

theorem leBytes8_ne_nil (n : Nat) : leBytes8 n ≠ [] := by
  simp [leBytes8]

/-! ### Facts about the staging path -/

theorem finishAdd_hashes (s : DiffState) (id hash : Bytes) (obj : Obj) :
    (finishAdd s id hash obj).hashes = s.hashes := by
  unfold finishAdd
  dsimp only
  split <;> rfl

theorem finishAdd_userData (s : DiffState) (id hash : Bytes) (obj : Obj) :
    (finishAdd s id hash obj).userData = s.userData := by
  unfold finishAdd
  dsimp only
  split <;> rfl

theorem finishAdd_track (s : DiffState) (id hash : Bytes) (obj : Obj) :
    (finishAdd s id hash obj).trackConflicts = s.trackConflicts := by
  unfold finishAdd
  dsimp only
  split <;> rfl

theorem finishAdd_pendingHashes (s : DiffState) (id hash : Bytes) (obj : Obj) :
    (finishAdd s id hash obj).pendingHashes = bput s.pendingHashes id hash := by
  unfold finishAdd
  dsimp only
  split <;> rfl

theorem finishAdd_conflicts_marked (s : DiffState) (id hash : Bytes) (obj : Obj)
    (h : s.trackConflicts = true) :
    bget (finishAdd s id hash obj).conflicts id = some [] := by
  unfold finishAdd
  dsimp only
  rw [if_pos h]
  exact bget_bput_self s.conflicts id []

theorem finishAdd_conflicts_off (s : DiffState) (id hash : Bytes) (obj : Obj)
    (h : s.trackConflicts = false) :
    (finishAdd s id hash obj).conflicts = s.conflicts := by
  unfold finishAdd
  dsimp only
  rw [h]
  rfl

theorem AddTx_hashes (hF : Obj → Nat) (s : DiffState) (obj : Obj) :
    (AddTx hF s obj).2.hashes = s.hashes := by
  unfold AddTx
  dsimp only
  split
  · rfl
  split
  · rfl
  split
  · split
    · rfl
    · exact finishAdd_hashes _ _ _ _
  · exact finishAdd_hashes _ _ _ _

theorem AddTx_userData (hF : Obj → Nat) (s : DiffState) (obj : Obj) :
    (AddTx hF s obj).2.userData = s.userData := by
  unfold AddTx
  dsimp only
  split
  · rfl
  split
  · rfl
  split
  · split
    · rfl
    · exact finishAdd_userData _ _ _ _
  · exact finishAdd_userData _ _ _ _

theorem AddTx_track (hF : Obj → Nat) (s : DiffState) (obj : Obj) :
    (AddTx hF s obj).2.trackConflicts = s.trackConflicts := by
  unfold AddTx
  dsimp only
  split
  · rfl
  split
  · rfl
  split
  · split
    · rfl
    · exact finishAdd_track _ _ _ _
  · exact finishAdd_track _ _ _ _

theorem AddTx_guard (hF : Obj → Nat) (s : DiffState) (obj : Obj)
    (h : s.trackConflicts = true ∧ (bget s.conflicts obj.id).isSome = true) :
    AddTx hF s obj = (AddRes.conflict, s) := by
  unfold AddTx
  dsimp only
  rw [if_pos h]

theorem AddTx_committed_match (hF : Obj → Nat) (s : DiffState) (obj : Obj)
    (hg : ¬(s.trackConflicts = true ∧ (bget s.conflicts obj.id).isSome = true))
    (hc : optBytes (bget s.hashes obj.id) = HashOf hF obj) :
    AddTx hF s obj = (AddRes.ok false, s) := by
  unfold AddTx
  dsimp only
  rw [if_neg hg, if_pos hc]

theorem AddTx_pending_match (hF : Obj → Nat) (s : DiffState) (obj : Obj) (pending : Bytes)
    (hg : ¬(s.trackConflicts = true ∧ (bget s.conflicts obj.id).isSome = true))
    (hc : ¬ optBytes (bget s.hashes obj.id) = HashOf hF obj)
    (hp : bget s.pendingHashes obj.id = some pending)
    (hm : pending ≠ [] ∧ pending = HashOf hF obj) :
    AddTx hF s obj = (AddRes.ok false, s) := by
  unfold AddTx
  dsimp only
  rw [if_neg hg, if_neg hc, hp]
  dsimp only
  rw [if_pos hm]

theorem AddTx_update_pending (hF : Obj → Nat) (s : DiffState) (obj : Obj) (pending : Bytes)
    (hg : ¬(s.trackConflicts = true ∧ (bget s.conflicts obj.id).isSome = true))
    (hc : ¬ optBytes (bget s.hashes obj.id) = HashOf hF obj)
    (hp : bget s.pendingHashes obj.id = some pending)
    (hm : ¬(pending ≠ [] ∧ pending = HashOf hF obj)) :
    AddTx hF s obj =
      (AddRes.ok true,
        finishAdd { s with pendingData := bdel s.pendingData pending }
          obj.id (HashOf hF obj) obj) := by
  unfold AddTx
  dsimp only
  rw [if_neg hg, if_neg hc, hp]
  dsimp only
  rw [if_neg hm]

theorem AddTx_update_fresh (hF : Obj → Nat) (s : DiffState) (obj : Obj)
    (hg : ¬(s.trackConflicts = true ∧ (bget s.conflicts obj.id).isSome = true))
    (hc : ¬ optBytes (bget s.hashes obj.id) = HashOf hF obj)
    (hp : bget s.pendingHashes obj.id = none) :
    AddTx hF s obj = (AddRes.ok true, finishAdd s obj.id (HashOf hF obj) obj) := by
  unfold AddTx
  dsimp only
  rw [if_neg hg, if_neg hc, hp]

theorem AddTx_conflict_iff (hF : Obj → Nat) (s : DiffState) (obj : Obj) :
    (AddTx hF s obj).1 = AddRes.conflict ↔
      s.trackConflicts = true ∧ (bget s.conflicts obj.id).isSome = true := by
  unfold AddTx
  dsimp only
  split
  case isTrue h => simpa using h
  case isFalse h =>
    split
    · simpa using h
    split
    · split
      · simpa using h
      · simpa using h
    · simpa using h

theorem AddTx_conflict_state (hF : Obj → Nat) (s : DiffState) (obj : Obj) :
    (AddTx hF s obj).1 = AddRes.conflict → (AddTx hF s obj).2 = s := by
  unfold AddTx
  dsimp only
  split
  · intro _
    rfl
  split
  · intro h
    simp at h
  split
  · split
    · intro h
      simp at h
    · intro h
      simp at h
  · intro h
    simp at h

theorem AddTx_restage_finish (hF : Obj → Nat) (t : DiffState) (obj : Obj)
    (hc : ¬ optBytes (bget t.hashes obj.id) = HashOf hF obj) :
    (AddTx hF (finishAdd t obj.id (HashOf hF obj) obj) obj).1 ≠ AddRes.ok true ∧
    (AddTx hF (finishAdd t obj.id (HashOf hF obj) obj) obj).2 =
      finishAdd t obj.id (HashOf hF obj) obj := by
  by_cases ht : t.trackConflicts = true
  · have hguard : (finishAdd t obj.id (HashOf hF obj) obj).trackConflicts = true ∧
        (bget (finishAdd t obj.id (HashOf hF obj) obj).conflicts obj.id).isSome = true := by
      refine ⟨?_, ?_⟩
      · rw [finishAdd_track]
        exact ht
      · rw [finishAdd_conflicts_marked t _ _ _ ht]
        rfl
    rw [AddTx_guard hF _ obj hguard]
    exact ⟨by simp, rfl⟩
  · have ht2 : (finishAdd t obj.id (HashOf hF obj) obj).trackConflicts = false := by
      rw [finishAdd_track]
      exact Bool.not_eq_true _ |>.mp ht
    have hguard : ¬((finishAdd t obj.id (HashOf hF obj) obj).trackConflicts = true ∧
        (bget (finishAdd t obj.id (HashOf hF obj) obj).conflicts obj.id).isSome = true) := by
      simp [ht2]
    have hch : ¬ optBytes (bget (finishAdd t obj.id (HashOf hF obj) obj).hashes obj.id)
        = HashOf hF obj := by
      rw [finishAdd_hashes]
      exact hc
    have hpend : bget (finishAdd t obj.id (HashOf hF obj) obj).pendingHashes obj.id
        = some (HashOf hF obj) := by
      rw [finishAdd_pendingHashes]
      exact bget_bput_self t.pendingHashes obj.id (HashOf hF obj)
    have hne : HashOf hF obj ≠ [] := leBytes8_ne_nil (hF obj)
    rw [AddTx_pending_match hF _ obj (HashOf hF obj) hguard hch hpend ⟨hne, rfl⟩]
    exact ⟨by simp, rfl⟩

/-! ### Concrete instances used by counterexamples and witnesses -/

/-- A structural hasher depending only on the object content, as the spec
contract for ContentHash demands (equal content implies equal hash). -/
def cHash : Obj → Nat := fun o => o.content

/-- State after enabling conflict tracking and staging object ([0], 7). -/
def c2s1 : DiffState :=
  (AddTx cHash (MustNotConflict emptyState) ⟨[0], 7⟩).2

/-- C2 (counterexample): with conflict tracking on, staging ([0], 7) and
then re-staging the identical object fails with ConflictingKey even
though the staged content (and hence the hash, still recorded pending)
is identical; the claim says identical re-staging is not a conflict. -/
theorem C2_counterexample :
    bget c2s1.pendingHashes [0] = some (HashOf cHash ⟨[0], 7⟩) ∧
    (AddTx cHash c2s1 ⟨[0], 7⟩).1 = AddRes.conflict ∧
    (AddTx cHash c2s1 ⟨[0], 7⟩).2 = c2s1 := by
  decide

/-- C2 (amended): with conflict tracking enabled, a stage call fails with
ConflictingKey exactly when the ID already carries a conflict marker in
the active epoch, regardless of whether the staged content is identical
to the pending one; and a failing stage call mutates no state. -/
theorem C2_conflict_iff_marker :
    ∀ (hF : Obj → Nat) (s : DiffState) (obj : Obj),
      ((AddTx hF s obj).1 = AddRes.conflict ↔
        s.trackConflicts = true ∧ (bget s.conflicts obj.id).isSome = true) ∧
      ((AddTx hF s obj).1 = AddRes.conflict → (AddTx hF s obj).2 = s) :=
  fun hF s obj => ⟨AddTx_conflict_iff hF s obj, AddTx_conflict_state hF s obj⟩

/-- Witness for C2: the amended theorem applied at a concrete conflicting
stage, discharging its hypothesis there. -/
theorem C2_conflict_witness : (AddTx cHash c2s1 ⟨[0], 7⟩).2 = c2s1 :=
  (C2_conflict_iff_marker cHash c2s1 ⟨[0], 7⟩).2 (by decide)

/-- C7: staging an object and then staging it again with identical
content returns updated=false on the second call (never ok true: either
a committed/pending no-op or, under conflict tracking, the conflict
error whose Go return value is false) and leaves every table unchanged. -/
theorem C7_idempotent_restage :
    ∀ (hF : Obj → Nat) (s : DiffState) (obj : Obj),
      (AddTx hF ((AddTx hF s obj).2) obj).1 ≠ AddRes.ok true ∧
      (AddTx hF ((AddTx hF s obj).2) obj).2 = (AddTx hF s obj).2 := by
  intro hF s obj
  by_cases hg : s.trackConflicts = true ∧ (bget s.conflicts obj.id).isSome = true
  · rw [AddTx_guard hF s obj hg]
    dsimp only
    rw [AddTx_guard hF s obj hg]
    exact ⟨by simp, rfl⟩
  · by_cases hc : optBytes (bget s.hashes obj.id) = HashOf hF obj
    · rw [AddTx_committed_match hF s obj hg hc]
      dsimp only
      rw [AddTx_committed_match hF s obj hg hc]
      exact ⟨by simp, rfl⟩
    · cases hp : bget s.pendingHashes obj.id with
      | some pending =>
        by_cases hm : pending ≠ [] ∧ pending = HashOf hF obj
        · rw [AddTx_pending_match hF s obj pending hg hc hp hm]
          dsimp only
          rw [AddTx_pending_match hF s obj pending hg hc hp hm]
          exact ⟨by simp, rfl⟩
        · rw [AddTx_update_pending hF s obj pending hg hc hp hm]
          dsimp only
          exact AddTx_restage_finish hF _ obj hc
      | none =>
        rw [AddTx_update_fresh hF s obj hg hc hp]
        dsimp only
        exact AddTx_restage_finish hF s obj hc

/-- C9: Changed is a pure read: it hands the state back untouched (all
five tables identical before and after), and its boolean result depends
only on the committed table, so it is independent of the pending tables
and of every other component of the state. -/
theorem C9_changed_pure_read :
    ∀ (hF : Obj → Nat) (s : DiffState) (id : Bytes) (x : Obj),
      (Changed hF s id x).2 = s ∧
      ∀ s2 : DiffState, s2.hashes = s.hashes →
        (Changed hF s2 id x).1 = (Changed hF s id x).1 := by
  intro hF s id x
  refine ⟨rfl, ?_⟩
  intro s2 h
  unfold Changed
  dsimp only
  rw [h]

/-- Witness for C9: two concrete states sharing the committed table but
with different pending tables give the same Changed result. -/
theorem C9_changed_witness :
    (Changed cHash ⟨[([3], leBytes8 9)], [([0], leBytes8 7)], [(leBytes8 7, ⟨[0], 7⟩)], [], [], false⟩
        [0] ⟨[0], 7⟩).1
      = (Changed cHash ⟨[([3], leBytes8 9)], [], [], [], [], false⟩ [0] ⟨[0], 7⟩).1 :=
  (C9_changed_pure_read cHash ⟨[([3], leBytes8 9)], [], [], [], [], false⟩ [0] ⟨[0], 7⟩).2
    ⟨[([3], leBytes8 9)], [([0], leBytes8 7)], [(leBytes8 7, ⟨[0], 7⟩)], [], [], false⟩ (by decide)

/-- C10: when an ID has no committed entry, Changed returns true for any
candidate, because the computed 8-byte digest can never equal the empty
result of the absent committed lookup — even if an equal hash is pending. -/
theorem C10_changed_absent_committed :
    ∀ (hF : Obj → Nat) (s : DiffState) (id : Bytes) (x : Obj),
      bget s.hashes id = none → (Changed hF s id x).1 = true := by
  intro hF s id x h
  unfold Changed
  dsimp only
  rw [h]
  simp [optBytes, HashOf, leBytes8]

/-- Witness for C10: a state whose pending table holds exactly the
candidate hash for the ID while the committed table is empty. -/
theorem C10_changed_absent_witness :
    (Changed cHash ⟨[], [([0], leBytes8 7)], [(leBytes8 7, ⟨[0], 7⟩)], [], [], false⟩
        [0] ⟨[0], 7⟩).1 = true :=
  C10_changed_absent_committed cHash
    ⟨[], [([0], leBytes8 7)], [(leBytes8 7, ⟨[0], 7⟩)], [], [], false⟩ [0] ⟨[0], 7⟩ (by decide)

/-! ### AddChan lemmas -/

theorem addChanLoop_rollback (hF : Obj → Nat) (s0 : DiffState) :
    ∀ (evs : List Ev) (cur : DiffState),
      (addChanLoop hF s0 cur evs).1 ≠ ChanRes.committed →
      (addChanLoop hF s0 cur evs).2 = s0 := by
  intro evs
  induction evs with
  | nil =>
    intro cur h
    exact absurd rfl h
  | cons ev rest ih =>
    intro cur h
    cases ev with
    | cancel => rfl
    | done => exact absurd rfl h
    | item o =>
      rcases hr : AddTx hF cur o with ⟨r, cur1⟩
      cases r with
      | conflict =>
        simp only [addChanLoop, hr]
      | ok u =>
        have := ih cur1
        simp only [addChanLoop, hr] at h ⊢
        exact this h

/-- C6: the streaming stage is all-or-nothing: if AddChan terminates with
a staging error or cancellation the outer transaction is rolled back and
all five tables (the whole state) are exactly as before the call; a
state that did change can only come from the committing nil-sentinel
(or closed-channel) termination. -/
theorem C6_addchan_all_or_nothing :
    ∀ (hF : Obj → Nat) (s : DiffState) (evs : List Ev),
      ((AddChan hF s evs).1 ≠ ChanRes.committed → (AddChan hF s evs).2 = s) ∧
      ((AddChan hF s evs).2 ≠ s → (AddChan hF s evs).1 = ChanRes.committed) := by
  intro hF s evs
  constructor
  · exact addChanLoop_rollback hF s evs s
  · intro h
    by_contra hne
    exact h (addChanLoop_rollback hF s evs s hne)

/-- Witness for C6: a run that stages an object and is then cancelled
leaves the concrete state untouched. -/
theorem C6_addchan_witness :
    (AddChan cHash emptyState [Ev.item ⟨[0], 7⟩, Ev.cancel]).2 = emptyState :=
  (C6_addchan_all_or_nothing cHash emptyState [Ev.item ⟨[0], 7⟩, Ev.cancel]).1 (by decide)

/-! ### EachN loop lemmas -/

theorem eachLoop_frames (f : Bytes → Obj → Bool) (cancel : Nat → Bool) (n : Int) :
    ∀ (entries : List (Bytes × Bytes)) (j i : Nat) (s : DiffState)
      (errs : List AErr) (tr : List TraceEntry) (st : DiffState),
      eachLoop f cancel n entries j i s = some (errs, tr, st) →
      (∀ q, bget st.hashes q = bget s.hashes q ∨
         ∃ t ∈ tr, t.ok = true ∧ t.id = q ∧ bget st.hashes q = some t.hash) ∧
      (∀ q, (∀ t ∈ tr, t.ok = true → t.id ≠ q) →
         bget st.pendingHashes q = bget s.pendingHashes q) ∧
      (∀ hh, (∀ t ∈ tr, t.ok = true → t.hash ≠ hh) →
         bget st.pendingData hh = bget s.pendingData hh) := by
  intro entries
  induction entries with
  | nil =>
    intro j i s errs tr st h
    simp only [eachLoop, Option.some.injEq, Prod.mk.injEq] at h
    obtain ⟨rfl, rfl, rfl⟩ := h
    exact ⟨fun q => Or.inl rfl, fun q _ => rfl, fun hh _ => rfl⟩
  | cons hd rest ih =>
    obtain ⟨id, hash⟩ := hd
    intro j i s errs tr st h
    simp only [eachLoop] at h
    by_cases hcan : cancel j = true
    · rw [if_pos hcan] at h
      simp only [Option.some.injEq, Prod.mk.injEq] at h
      obtain ⟨rfl, rfl, rfl⟩ := h
      exact ⟨fun q => Or.inl rfl, fun q _ => rfl, fun hh _ => rfl⟩
    · rw [if_neg hcan] at h
      cases hdata : bget s.pendingData hash with
      | none =>
        rw [hdata] at h
        simp at h
      | some o =>
        rw [hdata] at h
        dsimp only at h
        by_cases hf : f id o = true
        · rw [if_pos hf] at h
          by_cases hlim : 0 < n ∧ n = (i : Int) + 1
          · rw [if_pos hlim] at h
            simp only [Option.some.injEq, Prod.mk.injEq] at h
            obtain ⟨rfl, rfl, rfl⟩ := h
            refine ⟨?_, ?_, ?_⟩
            · intro q
              by_cases hq : q = id
              · subst hq
                refine Or.inr ⟨⟨q, hash, o, true⟩, by simp, rfl, rfl, ?_⟩
                exact bget_bput_self s.hashes q hash
              · exact Or.inl (bget_bput_ne s.hashes id q hash hq)
            · intro q hq
              have : id ≠ q := hq ⟨id, hash, o, true⟩ (by simp) rfl
              exact bget_bdel_ne s.pendingHashes id q (Ne.symm this)
            · intro hh hq
              have : hash ≠ hh := hq ⟨id, hash, o, true⟩ (by simp) rfl
              exact bget_bdel_ne s.pendingData hash hh (Ne.symm this)
          · rw [if_neg hlim] at h
            cases hrec : eachLoop f cancel n rest (j + 1) (i + 1) (promote s id hash) with
            | none =>
              rw [hrec] at h
              simp at h
            | some r =>
              obtain ⟨errs1, tr1, st1⟩ := r
              rw [hrec] at h
              simp only [Option.map_some', Option.some.injEq, Prod.mk.injEq] at h
              obtain ⟨rfl, rfl, rfl⟩ := h
              obtain ⟨ihh, ihp, ihd⟩ := ih (j + 1) (i + 1) (promote s id hash) errs1 tr1 st1 hrec
              refine ⟨?_, ?_, ?_⟩
              · intro q
                rcases ihh q with h1 | ⟨t, ht, hok, hid, hval⟩
                · by_cases hq : q = id
                  · subst hq
                    refine Or.inr ⟨⟨q, hash, o, true⟩, by simp, rfl, rfl, ?_⟩
                    rw [h1]
                    exact bget_bput_self s.hashes q hash
                  · left
                    rw [h1]
                    exact bget_bput_ne s.hashes id q hash hq
                · exact Or.inr ⟨t, List.mem_cons_of_mem _ ht, hok, hid, hval⟩
              · intro q hq
                have h1 : id ≠ q := hq ⟨id, hash, o, true⟩ (by simp) rfl
                have h2 : ∀ t ∈ tr1, t.ok = true → t.id ≠ q :=
                  fun t ht => hq t (List.mem_cons_of_mem _ ht)
                rw [ihp q h2]
                exact bget_bdel_ne s.pendingHashes id q (Ne.symm h1)
              · intro hh hq
                have h1 : hash ≠ hh := hq ⟨id, hash, o, true⟩ (by simp) rfl
                have h2 : ∀ t ∈ tr1, t.ok = true → t.hash ≠ hh :=
                  fun t ht => hq t (List.mem_cons_of_mem _ ht)
                rw [ihd hh h2]
                exact bget_bdel_ne s.pendingData hash hh (Ne.symm h1)
        · rw [if_neg hf] at h
          cases hrec : eachLoop f cancel n rest (j + 1) i s with
          | none =>
            rw [hrec] at h
            simp at h
          | some r =>
            obtain ⟨errs1, tr1, st1⟩ := r
            rw [hrec] at h
            simp only [Option.map_some', Option.some.injEq, Prod.mk.injEq] at h
            obtain ⟨rfl, rfl, rfl⟩ := h
            obtain ⟨ihh, ihp, ihd⟩ := ih (j + 1) i s errs1 tr1 st1 hrec
            refine ⟨?_, ?_, ?_⟩
            · intro q
              rcases ihh q with h1 | ⟨t, ht, hok, hid, hval⟩
              · exact Or.inl h1
              · exact Or.inr ⟨t, List.mem_cons_of_mem _ ht, hok, hid, hval⟩
            · intro q hq
              exact ihp q (fun t ht => hq t (List.mem_cons_of_mem _ ht))
            · intro hh hq
              exact ihd hh (fun t ht => hq t (List.mem_cons_of_mem _ ht))

/-- Hypotheses on a snapshot of the pending bucket: IDs pairwise
distinct, hashes pairwise distinct, every entry present in the pending
bucket and its payload present in the payload bucket. -/
def GoodEntries (entries : List (Bytes × Bytes)) (s : DiffState) : Prop :=
  (entries.map Prod.fst).Nodup ∧ (entries.map Prod.snd).Nodup ∧
  ∀ p ∈ entries, bget s.pendingHashes p.1 = some p.2 ∧
    (bget s.pendingData p.2).isSome = true

/-- A well-formed pending region: distinct bucket keys, pairwise
distinct pending hashes, and a payload for every pending hash. -/
def PendingWF (s : DiffState) : Prop :=
  keysNodup s.pendingHashes ∧ keysNodup s.pendingData ∧
  (s.pendingHashes.map Prod.snd).Nodup ∧
  ∀ p ∈ s.pendingHashes, (bget s.pendingData p.2).isSome = true

instance (s : DiffState) : Decidable (PendingWF s) := by
  unfold PendingWF keysNodup
  infer_instance

theorem goodEntries_of_wf (s : DiffState) (h : PendingWF s) :
    GoodEntries s.pendingHashes s := by
  obtain ⟨h1, h2, h3, h4⟩ := h
  refine ⟨h1, h3, ?_⟩
  intro p hp
  exact ⟨bget_of_mem_nodup s.pendingHashes p.1 p.2 h1 hp, h4 p hp⟩

theorem eachLoop_sound (f : Bytes → Obj → Bool) (cancel : Nat → Bool) (n : Int) :
    ∀ (entries : List (Bytes × Bytes)) (j i : Nat) (s : DiffState),
      GoodEntries entries s →
      keysNodup s.pendingHashes → keysNodup s.pendingData →
      ∃ errs tr st, eachLoop f cancel n entries j i s = some (errs, tr, st) ∧
        (∀ t ∈ tr, t.ok = false → AErr.fail t.id ∈ errs ∧
           bget st.pendingHashes t.id = some t.hash ∧
           bget st.pendingData t.hash = some t.obj) ∧
        (∀ t ∈ tr, t.ok = true → bget st.hashes t.id = some t.hash ∧
           bget st.pendingHashes t.id = none ∧ bget st.pendingData t.hash = none) ∧
        ∃ m, tr.map (fun t => (t.id, t.hash)) = entries.take m ∧
          ∀ p ∈ entries.drop m, bget st.pendingHashes p.1 = some p.2 ∧
            bget st.pendingData p.2 = bget s.pendingData p.2 := by
  intro entries
  induction entries with
  | nil =>
    intro j i s _ _ _
    refine ⟨[], [], s, by simp [eachLoop], by simp, by simp, 0, by simp, by simp⟩
  | cons hd rest ih =>
    obtain ⟨id, hash⟩ := hd
    intro j i s hgood hkp hkd
    obtain ⟨hids, hsnds, hpres⟩ := hgood
    simp only [List.map_cons, List.nodup_cons] at hids hsnds
    obtain ⟨hidnot, hids⟩ := hids
    obtain ⟨hsndnot, hsnds⟩ := hsnds
    obtain ⟨hph, hpd⟩ := hpres (id, hash) (List.mem_cons_self _ _)
    obtain ⟨o, ho⟩ := Option.isSome_iff_exists.mp hpd
    by_cases hcan : cancel j = true
    · refine ⟨[AErr.cancelled], [], s, ?_, by simp, by simp, 0, by simp, ?_⟩
      · simp only [eachLoop, if_pos hcan]
      · intro p hp
        simp only [List.drop_zero] at hp
        exact ⟨(hpres p hp).1, rfl⟩
    · by_cases hf : f id o = true
      · by_cases hlim : 0 < n ∧ n = (i : Int) + 1
        · refine ⟨[], [⟨id, hash, o, true⟩], promote s id hash, ?_, by simp, ?_, 1, by simp, ?_⟩
          · simp only [eachLoop, if_neg hcan, ho, if_pos hf, if_pos hlim]
          · intro t ht _
            simp only [List.mem_singleton] at ht
            subst ht
            refine ⟨bget_bput_self s.hashes id hash, ?_, ?_⟩
            · exact bget_bdel_self s.pendingHashes id hkp
            · exact bget_bdel_self s.pendingData hash hkd
          · intro p hp
            simp only [List.drop_succ_cons, List.drop_zero] at hp
            have hpid : p.1 ≠ id := by
              intro he
              exact hidnot (he ▸ List.mem_map_of_mem Prod.fst hp)
            have hphash : p.2 ≠ hash := by
              intro he
              exact hsndnot (he ▸ List.mem_map_of_mem Prod.snd hp)
            constructor
            · rw [show (promote s id hash).pendingHashes = bdel s.pendingHashes id from rfl]
              rw [bget_bdel_ne s.pendingHashes id p.1 hpid]
              exact (hpres p (List.mem_cons_of_mem _ hp)).1
            · rw [show (promote s id hash).pendingData = bdel s.pendingData hash from rfl]
              exact bget_bdel_ne s.pendingData hash p.2 hphash
        · have hgood2 : GoodEntries rest (promote s id hash) := by
            refine ⟨hids, hsnds, ?_⟩
            intro p hp
            have hpid : p.1 ≠ id := by
              intro he
              exact hidnot (he ▸ List.mem_map_of_mem Prod.fst hp)
            have hphash : p.2 ≠ hash := by
              intro he
              exact hsndnot (he ▸ List.mem_map_of_mem Prod.snd hp)
            constructor
            · rw [show (promote s id hash).pendingHashes = bdel s.pendingHashes id from rfl]
              rw [bget_bdel_ne s.pendingHashes id p.1 hpid]
              exact (hpres p (List.mem_cons_of_mem _ hp)).1
            · rw [show (promote s id hash).pendingData = bdel s.pendingData hash from rfl]
              rw [bget_bdel_ne s.pendingData hash p.2 hphash]
              exact (hpres p (List.mem_cons_of_mem _ hp)).2
          have hkp2 : keysNodup (promote s id hash).pendingHashes :=
            keysNodup_bdel s.pendingHashes id hkp
          have hkd2 : keysNodup (promote s id hash).pendingData :=
            keysNodup_bdel s.pendingData hash hkd
          obtain ⟨errs1, tr1, st, hrec, ha, hb, m, hm, hdrop⟩ :=
            ih (j + 1) (i + 1) (promote s id hash) hgood2 hkp2 hkd2
          have htrmem : ∀ t ∈ tr1, (t.id, t.hash) ∈ rest := by
            intro t ht
            have h1 : (t.id, t.hash) ∈ tr1.map (fun t => (t.id, t.hash)) :=
              List.mem_map_of_mem _ ht
            rw [hm] at h1
            exact List.mem_of_mem_take h1
          have htrid : ∀ t ∈ tr1, t.id ≠ id := by
            intro t ht he
            exact hidnot (he ▸ List.mem_map_of_mem Prod.fst (htrmem t ht))
          have htrhash : ∀ t ∈ tr1, t.hash ≠ hash := by
            intro t ht he
            exact hsndnot (he ▸ List.mem_map_of_mem Prod.snd (htrmem t ht))
          obtain ⟨ihh, ihp, ihd⟩ := eachLoop_frames f cancel n rest (j + 1) (i + 1)
            (promote s id hash) errs1 tr1 st hrec
          refine ⟨errs1, ⟨id, hash, o, true⟩ :: tr1, st, ?_, ?_, ?_, m + 1, ?_, ?_⟩
          · simp only [eachLoop, if_neg hcan, ho, if_pos hf, if_neg hlim, hrec,
              Option.map_some']
          · intro t ht hok
            rcases List.mem_cons.mp ht with he | ht2
            · subst he
              simp at hok
            · exact ha t ht2 hok
          · intro t ht hok
            rcases List.mem_cons.mp ht with he | ht2
            · subst he
              refine ⟨?_, ?_, ?_⟩
              · rcases ihh id with h1 | ⟨t2, ht2, hok2, hid2, _⟩
                · rw [h1, show (promote s id hash).hashes = bput s.hashes id hash from rfl]
                  exact bget_bput_self s.hashes id hash
                · exact absurd hid2 (htrid t2 ht2)
              · rw [ihp id (fun t2 ht2 _ => htrid t2 ht2)]
                rw [show (promote s id hash).pendingHashes = bdel s.pendingHashes id from rfl]
                exact bget_bdel_self s.pendingHashes id hkp
              · rw [ihd hash (fun t2 ht2 _ => htrhash t2 ht2)]
                rw [show (promote s id hash).pendingData = bdel s.pendingData hash from rfl]
                exact bget_bdel_self s.pendingData hash hkd
            · exact hb t ht2 hok
          · simp only [List.map_cons, List.take_succ_cons, hm]
          · intro p hp
            simp only [List.drop_succ_cons] at hp
            have hphash : p.2 ≠ hash := by
              intro he
              exact hsndnot
                (he ▸ List.mem_map_of_mem Prod.snd (List.mem_of_mem_drop hp))
            obtain ⟨hd1, hd2⟩ := hdrop p hp
            refine ⟨hd1, ?_⟩
            rw [hd2, show (promote s id hash).pendingData = bdel s.pendingData hash from rfl]
            exact bget_bdel_ne s.pendingData hash p.2 hphash
      · have hgood2 : GoodEntries rest s :=
          ⟨hids, hsnds, fun p hp => hpres p (List.mem_cons_of_mem _ hp)⟩
        obtain ⟨errs1, tr1, st, hrec, ha, hb, m, hm, hdrop⟩ :=
          ih (j + 1) i s hgood2 hkp hkd
        have htrmem : ∀ t ∈ tr1, (t.id, t.hash) ∈ rest := by
          intro t ht
          have h1 : (t.id, t.hash) ∈ tr1.map (fun t => (t.id, t.hash)) :=
            List.mem_map_of_mem _ ht
          rw [hm] at h1
          exact List.mem_of_mem_take h1
        have htrid : ∀ t ∈ tr1, t.id ≠ id := by
          intro t ht he
          exact hidnot (he ▸ List.mem_map_of_mem Prod.fst (htrmem t ht))
        have htrhash : ∀ t ∈ tr1, t.hash ≠ hash := by
          intro t ht he
          exact hsndnot (he ▸ List.mem_map_of_mem Prod.snd (htrmem t ht))
        obtain ⟨ihh, ihp, ihd⟩ := eachLoop_frames f cancel n rest (j + 1) i s errs1 tr1 st hrec
        refine ⟨AErr.fail id :: errs1, ⟨id, hash, o, false⟩ :: tr1, st, ?_, ?_, ?_, m + 1, ?_, ?_⟩
        · simp only [eachLoop, if_neg hcan, ho, if_neg hf, hrec, Option.map_some']
        · intro t ht hok
          rcases List.mem_cons.mp ht with he | ht2
          · subst he
            refine ⟨List.mem_cons_self _ _, ?_, ?_⟩
            · rw [ihp id (fun t2 ht2 _ => htrid t2 ht2)]
              exact hph
            · rw [ihd hash (fun t2 ht2 _ => htrhash t2 ht2)]
              exact ho
          · obtain ⟨he1, he2, he3⟩ := ha t ht2 hok
            exact ⟨List.mem_cons_of_mem _ he1, he2, he3⟩
        · intro t ht hok
          rcases List.mem_cons.mp ht with he | ht2
          · subst he
            simp at hok
          · exact hb t ht2 hok
        · simp only [List.map_cons, List.take_succ_cons, hm]
        · intro p hp
          simp only [List.drop_succ_cons] at hp
          exact hdrop p hp

theorem goodEntries_tail (id hash : Bytes) (rest : List (Bytes × Bytes)) (s : DiffState)
    (hgood : GoodEntries ((id, hash) :: rest) s) : GoodEntries rest s := by
  obtain ⟨h1, h2, h3⟩ := hgood
  simp only [List.map_cons, List.nodup_cons] at h1 h2
  exact ⟨h1.2, h2.2, fun p hp => h3 p (List.mem_cons_of_mem _ hp)⟩

theorem goodEntries_tail_promote (id hash : Bytes) (rest : List (Bytes × Bytes)) (s : DiffState)
    (hgood : GoodEntries ((id, hash) :: rest) s) :
    GoodEntries rest (promote s id hash) := by
  obtain ⟨h1, h2, h3⟩ := hgood
  simp only [List.map_cons, List.nodup_cons] at h1 h2
  refine ⟨h1.2, h2.2, ?_⟩
  intro p hp
  have hpid : p.1 ≠ id := by
    intro he
    exact h1.1 (he ▸ List.mem_map_of_mem Prod.fst hp)
  have hphash : p.2 ≠ hash := by
    intro he
    exact h2.1 (he ▸ List.mem_map_of_mem Prod.snd hp)
  constructor
  · rw [show (promote s id hash).pendingHashes = bdel s.pendingHashes id from rfl]
    rw [bget_bdel_ne s.pendingHashes id p.1 hpid]
    exact (h3 p (List.mem_cons_of_mem _ hp)).1
  · rw [show (promote s id hash).pendingData = bdel s.pendingData hash from rfl]
    rw [bget_bdel_ne s.pendingData hash p.2 hphash]
    exact (h3 p (List.mem_cons_of_mem _ hp)).2

theorem eachLoop_full (f : Bytes → Obj → Bool) (n : Int) (hn : n ≤ 0) :
    ∀ (entries : List (Bytes × Bytes)) (j i : Nat) (s : DiffState)
      (errs : List AErr) (tr : List TraceEntry) (st : DiffState),
      eachLoop f (fun _ => false) n entries j i s = some (errs, tr, st) →
      tr.map (fun t => (t.id, t.hash)) = entries := by
  intro entries
  induction entries with
  | nil =>
    intro j i s errs tr st h
    simp only [eachLoop, Option.some.injEq, Prod.mk.injEq] at h
    obtain ⟨rfl, rfl, rfl⟩ := h
    rfl
  | cons hd rest ih =>
    obtain ⟨id, hash⟩ := hd
    intro j i s errs tr st h
    have hlim : ¬(0 < n ∧ n = (i : Int) + 1) := by
      intro hc
      omega
    simp only [eachLoop, if_neg (by simp : ¬false = true)] at h
    cases hdata : bget s.pendingData hash with
    | none =>
      rw [hdata] at h
      simp at h
    | some o =>
      rw [hdata] at h
      dsimp only at h
      by_cases hf : f id o = true
      · rw [if_pos hf, if_neg hlim] at h
        cases hrec : eachLoop f (fun _ => false) n rest (j + 1) (i + 1) (promote s id hash) with
        | none =>
          rw [hrec] at h
          simp at h
        | some r =>
          obtain ⟨errs1, tr1, st1⟩ := r
          rw [hrec] at h
          simp only [Option.map_some', Option.some.injEq, Prod.mk.injEq] at h
          obtain ⟨rfl, rfl, rfl⟩ := h
          simp only [List.map_cons]
          rw [ih (j + 1) (i + 1) (promote s id hash) errs1 tr1 st1 hrec]
      · rw [if_neg hf] at h
        cases hrec : eachLoop f (fun _ => false) n rest (j + 1) i s with
        | none =>
          rw [hrec] at h
          simp at h
        | some r =>
          obtain ⟨errs1, tr1, st1⟩ := r
          rw [hrec] at h
          simp only [Option.map_some', Option.some.injEq, Prod.mk.injEq] at h
          obtain ⟨rfl, rfl, rfl⟩ := h
          simp only [List.map_cons]
          rw [ih (j + 1) i s errs1 tr1 st1 hrec]

theorem eachLoop_promoted_le (f : Bytes → Obj → Bool) (cancel : Nat → Bool) (n : Int) :
    ∀ (entries : List (Bytes × Bytes)) (j i : Nat) (s : DiffState)
      (errs : List AErr) (tr : List TraceEntry) (st : DiffState),
      eachLoop f cancel n entries j i s = some (errs, tr, st) →
      0 < n → (i : Int) < n →
      ((tr.filter (fun t => t.ok)).length : Int) ≤ n - i := by
  intro entries
  induction entries with
  | nil =>
    intro j i s errs tr st h _ hi
    simp only [eachLoop, Option.some.injEq, Prod.mk.injEq] at h
    obtain ⟨rfl, rfl, rfl⟩ := h
    simp
    omega
  | cons hd rest ih =>
    obtain ⟨id, hash⟩ := hd
    intro j i s errs tr st h hn hi
    simp only [eachLoop] at h
    by_cases hcan : cancel j = true
    · rw [if_pos hcan] at h
      simp only [Option.some.injEq, Prod.mk.injEq] at h
      obtain ⟨rfl, rfl, rfl⟩ := h
      simp
      omega
    · rw [if_neg hcan] at h
      cases hdata : bget s.pendingData hash with
      | none =>
        rw [hdata] at h
        simp at h
      | some o =>
        rw [hdata] at h
        dsimp only at h
        by_cases hf : f id o = true
        · rw [if_pos hf] at h
          by_cases hlim : 0 < n ∧ n = (i : Int) + 1
          · rw [if_pos hlim] at h
            simp only [Option.some.injEq, Prod.mk.injEq] at h
            obtain ⟨rfl, rfl, rfl⟩ := h
            simp [List.filter]
            omega
          · rw [if_neg hlim] at h
            cases hrec : eachLoop f cancel n rest (j + 1) (i + 1) (promote s id hash) with
            | none =>
              rw [hrec] at h
              simp at h
            | some r =>
              obtain ⟨errs1, tr1, st1⟩ := r
              rw [hrec] at h
              simp only [Option.map_some', Option.some.injEq, Prod.mk.injEq] at h
              obtain ⟨rfl, rfl, rfl⟩ := h
              have hlt : ((i : Int) + 1) < n := by
                rcases hlim with hlim
                omega
              have := ih (j + 1) (i + 1) (promote s id hash) errs1 tr1 st1 hrec hn
                (by push_cast; omega)
              have hlen : (List.filter (fun t => t.ok)
                  (TraceEntry.mk id hash o true :: tr1)).length
                  = (List.filter (fun t => t.ok) tr1).length + 1 := by
                simp [List.filter_cons]
              rw [hlen]
              push_cast at this ⊢
              omega
        · rw [if_neg hf] at h
          cases hrec : eachLoop f cancel n rest (j + 1) i s with
          | none =>
            rw [hrec] at h
            simp at h
          | some r =>
            obtain ⟨errs1, tr1, st1⟩ := r
            rw [hrec] at h
            simp only [Option.map_some', Option.some.injEq, Prod.mk.injEq] at h
            obtain ⟨rfl, rfl, rfl⟩ := h
            have := ih (j + 1) i s errs1 tr1 st1 hrec hn hi
            simpa [List.filter_cons] using this

theorem eachLoop_cancelK (f : Bytes → Obj → Bool) (k : Nat) :
    ∀ (entries : List (Bytes × Bytes)) (j i : Nat) (s : DiffState),
      GoodEntries entries s →
      keysNodup s.pendingHashes → keysNodup s.pendingData →
      j ≤ k → k - j < entries.length →
      ∃ errs tr st,
        eachLoop f (fun j2 => decide (k ≤ j2)) 0 entries j i s = some (errs, tr, st) ∧
        errs.getLast? = some AErr.cancelled ∧ tr.length = k - j := by
  intro entries
  induction entries with
  | nil =>
    intro j i s _ _ _ _ hlen
    simp at hlen
  | cons hd rest ih =>
    obtain ⟨id, hash⟩ := hd
    intro j i s hgood hkp hkd hjk hlen
    by_cases hcan : k ≤ j
    · refine ⟨[AErr.cancelled], [], s, ?_, rfl, by simp; omega⟩
      simp only [eachLoop, decide_eq_true_eq, if_pos hcan]
    · have hjk2 : j < k := Nat.lt_of_not_le hcan
      obtain ⟨hph, hpd⟩ := hgood.2.2 (id, hash) (List.mem_cons_self _ _)
      obtain ⟨o, ho⟩ := Option.isSome_iff_exists.mp hpd
      have hlim : ¬((0 : Int) < 0 ∧ (0 : Int) = (i : Int) + 1) := by
        intro hc
        exact absurd hc.1 (by omega)
      by_cases hf : f id o = true
      · have hkp2 : keysNodup (promote s id hash).pendingHashes :=
          keysNodup_bdel s.pendingHashes id hkp
        have hkd2 : keysNodup (promote s id hash).pendingData :=
          keysNodup_bdel s.pendingData hash hkd
        obtain ⟨errs1, tr1, st, hrec, hlast, htlen⟩ :=
          ih (j + 1) (i + 1) (promote s id hash)
            (goodEntries_tail_promote id hash rest s hgood) hkp2 hkd2
            (by omega) (by simp at hlen; omega)
        refine ⟨errs1, ⟨id, hash, o, true⟩ :: tr1, st, ?_, hlast, by simp [htlen]; omega⟩
        simp [eachLoop, hcan, ho, hf, hlim, hrec]
      · obtain ⟨errs1, tr1, st, hrec, hlast, htlen⟩ :=
          ih (j + 1) i s (goodEntries_tail id hash rest s hgood) hkp hkd
            (by omega) (by simp at hlen; omega)
        refine ⟨AErr.fail id :: errs1, ⟨id, hash, o, false⟩ :: tr1, st, ?_, ?_, by simp [htlen]; omega⟩
        · simp [eachLoop, hcan, ho, hf, hrec]
        · cases errs1 with
          | nil => simp at hlast
          | cons e l =>
            rw [List.getLast?_cons_cons]
            exact hlast

/-! ### Claim theorems on the apply driver -/

/-- Two distinct IDs staged with identical content (the content-only
hasher gives them one shared hash), then one of them promoted. -/
def c1state : DiffState :=
  (AddTx cHash ((AddTx cHash emptyState ⟨[0], 5⟩).2) ⟨[1], 5⟩).2

/-- The state after applying one item of c1state with limit 1. -/
def c1after : DiffState :=
  match EachN (fun _ _ => true) (fun _ => false) c1state 1 with
  | some r => r.2.2
  | none => emptyState

/-- C1 (code bug): after staging IDs [0] and [1] with identical content
(equal hashes) and promoting [0] with a limit-1 apply, ID [1] is still
pending with that hash but the shared payload has been deleted, so the
claimed invariant — every pending ID has a matching payload — is broken,
and the next unbounded apply run hits the missing-payload panic (none). -/
theorem C1_shared_hash_code_bug :
    bget c1after.pendingHashes [1] = some (leBytes8 5) ∧
    bget c1after.pendingData (leBytes8 5) = none ∧
    EachN (fun _ _ => true) (fun _ => false) c1after 0 = none := by
  decide

/-- Five pending items with distinct contents and payloads in place. -/
def c3s5 : DiffState :=
  ⟨[],
   [([0], leBytes8 10), ([1], leBytes8 11), ([2], leBytes8 12),
    ([3], leBytes8 13), ([4], leBytes8 14)],
   [(leBytes8 10, ⟨[0], 10⟩), (leBytes8 11, ⟨[1], 11⟩), (leBytes8 12, ⟨[2], 12⟩),
    (leBytes8 13, ⟨[3], 13⟩), (leBytes8 14, ⟨[4], 14⟩)],
   [], [], false⟩

/-- A callback failing for every ID except [4]. -/
def c3f : Bytes → Obj → Bool := fun id _ => decide (id = [4])

/-- C3 (counterexample): with 5 pending items and limit 2, a callback
that fails on the first four items is invoked on all 5 entries (more
than the limit), only 1 item is promoted (not exactly 2), and
CountChanges decreases by 1 (not by 2): the limit does not bound
callback invocations and failures do not count toward it. -/
theorem C3_counterexample :
    (EachN c3f (fun _ => false) c3s5 2).map
        (fun r => (r.2.1.length, (r.2.1.filter (fun t => t.ok)).length,
          CountChanges c3s5 - CountChanges r.2.2))
      = some (5, 1, 1) ∧ 2 < 5 ∧ (1 : Nat) ≠ 2 := by
  decide

/-- C3 (amended): for every limit n > 0 a single EachN call performs at
most n promotions — the limit counts callback successes, not callback
invocations — and with 5 pending items, limit 2 and an all-success
callback exactly 2 items are promoted and CountChanges decreases by 2. -/
theorem C3_limit_counts_promotions :
    (∀ (f : Bytes → Obj → Bool) (cancel : Nat → Bool) (s : DiffState) (n : Int)
       (errs : List AErr) (tr : List TraceEntry) (st : DiffState),
        0 < n → EachN f cancel s n = some (errs, tr, st) →
        ((tr.filter (fun t => t.ok)).length : Int) ≤ n) ∧
    (EachN (fun _ _ => true) (fun _ => false) c3s5 2).map
        (fun r => ((r.2.1.filter (fun t => t.ok)).length,
          CountChanges c3s5 - CountChanges r.2.2))
      = some (2, 2) := by
  constructor
  · intro f cancel s n errs tr st hn h
    have := eachLoop_promoted_le f cancel n s.pendingHashes 0 0 s errs tr st h hn
      (by exact_mod_cast hn)
    simpa using this
  · decide

/-- The aggregated result of the limit-2 all-success apply on c3s5. -/
def c3res : List AErr × List TraceEntry × DiffState :=
  match EachN (fun _ _ => true) (fun _ => false) c3s5 2 with
  | some r => r
  | none => ([], [], emptyState)

/-- Witness for C3: the amended bound applied at the concrete limit-2 run. -/
theorem C3_limit_witness :
    ((c3res.2.1.filter (fun t => t.ok)).length : Int) ≤ 2 :=
  C3_limit_counts_promotions.1 (fun _ _ => true) (fun _ => false) c3s5 2
    c3res.1 c3res.2.1 c3res.2.2 (by decide) (by decide)

/-- C4: on a well-formed pending region, an apply run with no
cancellation always returns a committed result in which every scanned
item whose callback failed is recorded by ID in the aggregated error
and keeps its pending entry and payload for retry, every scanned item
whose callback succeeded is promoted (committed hash written, pending
entry and payload deleted), and with no limit the scan reaches every
pending item — a failure never aborts the batch. -/
theorem C4_partial_failure_isolation :
    ∀ (f : Bytes → Obj → Bool) (n : Int) (s : DiffState),
      PendingWF s →
      ∃ errs tr st, EachN f (fun _ => false) s n = some (errs, tr, st) ∧
        (∀ t ∈ tr, t.ok = false → AErr.fail t.id ∈ errs ∧
           bget st.pendingHashes t.id = some t.hash ∧
           bget st.pendingData t.hash = some t.obj) ∧
        (∀ t ∈ tr, t.ok = true → bget st.hashes t.id = some t.hash ∧
           bget st.pendingHashes t.id = none ∧ bget st.pendingData t.hash = none) ∧
        (n ≤ 0 → tr.map (fun t => (t.id, t.hash)) = s.pendingHashes) := by
  intro f n s hwf
  obtain ⟨errs, tr, st, h, ha, hb, _⟩ :=
    eachLoop_sound f (fun _ => false) n s.pendingHashes 0 0 s
      (goodEntries_of_wf s hwf) hwf.1 hwf.2.1
  exact ⟨errs, tr, st, h, ha, hb,
    fun hn => eachLoop_full f n hn s.pendingHashes 0 0 s errs tr st h⟩

/-- Pending items A = [0] and B = [1] with distinct hashes. -/
def c4s : DiffState :=
  ⟨[], [([0], leBytes8 1), ([1], leBytes8 2)],
   [(leBytes8 1, ⟨[0], 1⟩), (leBytes8 2, ⟨[1], 2⟩)], [], [], false⟩

/-- Witness for C4: the theorem applied to the concrete A/B state with a
callback failing only for A, discharging the well-formedness hypothesis. -/
theorem C4_partial_failure_witness :
    PendingWF c4s ∧
    ∃ errs tr st,
      EachN (fun id _ => decide (id = [1])) (fun _ => false) c4s (-1) = some (errs, tr, st) ∧
      (∀ t ∈ tr, t.ok = false → AErr.fail t.id ∈ errs ∧
         bget st.pendingHashes t.id = some t.hash ∧
         bget st.pendingData t.hash = some t.obj) ∧
      (∀ t ∈ tr, t.ok = true → bget st.hashes t.id = some t.hash ∧
         bget st.pendingHashes t.id = none ∧ bget st.pendingData t.hash = none) ∧
      ((-1 : Int) ≤ 0 → tr.map (fun t => (t.id, t.hash)) = c4s.pendingHashes) :=
  ⟨by decide, C4_partial_failure_isolation (fun id _ => decide (id = [1])) (-1) c4s (by decide)⟩

/-- C5: on a well-formed pending region, an apply run that observes
cancellation at iteration k (within the scan) stops there: exactly the
first k pending items are scanned, the cancellation is the terminal
entry of the aggregated error, every scanned item whose callback
succeeded is promoted and that promotion is committed (it is present in
the returned state), and every item not yet reached keeps its pending
entry and payload untouched. -/
theorem C5_cancellation_partial_progress :
    ∀ (f : Bytes → Obj → Bool) (k : Nat) (s : DiffState),
      PendingWF s → k < s.pendingHashes.length →
      ∃ errs tr st,
        EachN f (fun j => decide (k ≤ j)) s 0 = some (errs, tr, st) ∧
        errs.getLast? = some AErr.cancelled ∧
        tr.map (fun t => (t.id, t.hash)) = s.pendingHashes.take k ∧
        (∀ p ∈ s.pendingHashes.drop k, bget st.pendingHashes p.1 = some p.2 ∧
          bget st.pendingData p.2 = bget s.pendingData p.2) ∧
        (∀ t ∈ tr, t.ok = true → bget st.hashes t.id = some t.hash ∧
          bget st.pendingHashes t.id = none ∧ bget st.pendingData t.hash = none) := by
  intro f k s hwf hk
  obtain ⟨errs, tr, st, h, _, hb, m, hm, hdrop⟩ :=
    eachLoop_sound f (fun j => decide (k ≤ j)) 0 s.pendingHashes 0 0 s
      (goodEntries_of_wf s hwf) hwf.1 hwf.2.1
  obtain ⟨errs2, tr2, st2, h2, hlast, hlen⟩ :=
    eachLoop_cancelK f k s.pendingHashes 0 0 s (goodEntries_of_wf s hwf) hwf.1 hwf.2.1
      (Nat.zero_le k) (by simpa using hk)
  rw [h] at h2
  simp only [Option.some.injEq, Prod.mk.injEq] at h2
  obtain ⟨rfl, rfl, rfl⟩ := h2
  have htrk : tr.length = k := by
    rw [hlen]
    omega
  have hlen2 : tr.length = min m s.pendingHashes.length := by
    have h3 := congrArg List.length hm
    simpa using h3
  have hmk : m = k := by
    omega
  subst hmk
  exact ⟨errs, tr, st, h, hlast, hm, hdrop, hb⟩

/-- Two pending items for the C5 witness. -/
def c5s : DiffState :=
  ⟨[], [([0], leBytes8 3), ([1], leBytes8 4)],
   [(leBytes8 3, ⟨[0], 3⟩), (leBytes8 4, ⟨[1], 4⟩)], [], [], false⟩

/-- Witness for C5: the theorem applied at a concrete 2-item state with
cancellation observed at iteration 1, discharging both hypotheses. -/
theorem C5_cancellation_witness :
    PendingWF c5s ∧
    ∃ errs tr st,
      EachN (fun _ _ => true) (fun j => decide (1 ≤ j)) c5s 0 = some (errs, tr, st) ∧
      errs.getLast? = some AErr.cancelled ∧
      tr.map (fun t => (t.id, t.hash)) = c5s.pendingHashes.take 1 ∧
      (∀ p ∈ c5s.pendingHashes.drop 1, bget st.pendingHashes p.1 = some p.2 ∧
        bget st.pendingData p.2 = bget c5s.pendingData p.2) ∧
      (∀ t ∈ tr, t.ok = true → bget st.hashes t.id = some t.hash ∧
        bget st.pendingHashes t.id = none ∧ bget st.pendingData t.hash = none) :=
  ⟨by decide,
    C5_cancellation_partial_progress (fun _ _ => true) 1 c5s (by decide) (by decide)⟩

/-! ### Committed-table discipline -/

theorem addChanLoop_hashes (hF : Obj → Nat) (s0 : DiffState) :
    ∀ (evs : List Ev) (cur : DiffState), cur.hashes = s0.hashes →
      (addChanLoop hF s0 cur evs).2.hashes = s0.hashes := by
  intro evs
  induction evs with
  | nil =>
    intro cur h
    exact h
  | cons ev rest ih =>
    intro cur h
    cases ev with
    | cancel => rfl
    | done => exact h
    | item o =>
      rcases hr : AddTx hF cur o with ⟨r, cur1⟩
      cases r with
      | conflict => simp only [addChanLoop, hr]
      | ok u =>
        simp only [addChanLoop, hr]
        apply ih
        have h2 := AddTx_hashes hF cur o
        rw [hr] at h2
        rw [show ((AddRes.ok u, cur1) : AddRes × DiffState).2 = cur1 from rfl] at h2
        rw [h2, h]

/-- C8: the committed table is mutated only by the apply driver on
callback success: staging, streaming staging, conflict-tracking
enablement and Changed leave the committed table (for Changed, the whole
state) untouched; and an apply run never deletes a committed entry —
every committed ID stays committed — while any ID whose committed entry
differs after the run corresponds to a successfully applied item of the
scan. -/
theorem C8_committed_mutation_discipline :
    (∀ (hF : Obj → Nat) (s : DiffState) (obj : Obj),
       ((AddTx hF s obj).2).hashes = s.hashes) ∧
    (∀ (hF : Obj → Nat) (s : DiffState) (evs : List Ev),
       ((AddChan hF s evs).2).hashes = s.hashes) ∧
    (∀ s : DiffState, (MustNotConflict s).hashes = s.hashes) ∧
    (∀ (hF : Obj → Nat) (s : DiffState) (id : Bytes) (x : Obj),
       (Changed hF s id x).2 = s) ∧
    (∀ (f : Bytes → Obj → Bool) (cancel : Nat → Bool) (s : DiffState) (n : Int)
       (errs : List AErr) (tr : List TraceEntry) (st : DiffState),
        EachN f cancel s n = some (errs, tr, st) →
        (∀ q h, bget s.hashes q = some h → ∃ h2, bget st.hashes q = some h2) ∧
        (∀ q, bget st.hashes q ≠ bget s.hashes q →
           ∃ t ∈ tr, t.ok = true ∧ t.id = q)) := by
  refine ⟨AddTx_hashes, ?_, fun s => rfl, fun hF s id x => rfl, ?_⟩
  · intro hF s evs
    exact addChanLoop_hashes hF s evs s rfl
  · intro f cancel s n errs tr st h
    obtain ⟨ihh, _, _⟩ := eachLoop_frames f cancel n s.pendingHashes 0 0 s errs tr st h
    constructor
    · intro q hq hsome
      rcases ihh q with h1 | ⟨t, ht, hok, hid, hval⟩
      · exact ⟨hq, by rw [h1, hsome]⟩
      · exact ⟨t.hash, hval⟩
    · intro q hne
      rcases ihh q with h1 | ⟨t, ht, hok, hid, _⟩
      · exact absurd h1 hne
      · exact ⟨t, ht, hok, hid⟩

/-- One committed entry for [9] and one pending item [0] to promote. -/
def c8s : DiffState :=
  ⟨[([9], leBytes8 1)], [([0], leBytes8 2)], [(leBytes8 2, ⟨[0], 2⟩)], [], [], false⟩

/-- The result of the unbounded all-success apply on c8s. -/
def c8res : List AErr × List TraceEntry × DiffState :=
  match EachN (fun _ _ => true) (fun _ => false) c8s 0 with
  | some r => r
  | none => ([], [], emptyState)

/-- Witness for C8: after the concrete apply run on c8s, the committed
entry for [9] survives — obtained by applying the claim theorem and
discharging its hypotheses at this input. -/
theorem C8_committed_witness :
    ∃ h2, bget c8res.2.2.hashes [9] = some h2 :=
  ((C8_committed_mutation_discipline.2.2.2.2 (fun _ _ => true) (fun _ => false) c8s 0
      c8res.1 c8res.2.1 c8res.2.2 (by decide)).1) [9] (leBytes8 1) (by decide)

/-- Witness for C7: the idempotence theorem applied at a concrete
object, giving the unchanged-state conclusion for the re-stage. -/
theorem C7_idempotent_witness :
    (AddTx cHash ((AddTx cHash emptyState ⟨[2], 3⟩).2) ⟨[2], 3⟩).1 ≠ AddRes.ok true ∧
    (AddTx cHash ((AddTx cHash emptyState ⟨[2], 3⟩).2) ⟨[2], 3⟩).2 =
      (AddTx cHash emptyState ⟨[2], 3⟩).2 :=
  C7_idempotent_restage cHash emptyState ⟨[2], 3⟩
